import Mathlib

/-!
Verification of the job-aggregation pipeline.

We give a shallow embedding of the pipeline's core functions:
  * `app/services/enrichment.py` — the regex-based experience inferencer
    (`_extract_experience`) and the match scorer inside
    `enrich_jobs_with_match`;
  * `app/services/scraper_manager.py` — `scrape_company`,
    `scrape_jobs_multi`, and the upsert persistence `save_jobs_to_db`;
  * `app/api/jobs.py` — the `search_multi_jobs` endpoint;
  * `app/services/scrappers/microsoft_scraper.py` —
    `_extract_experience_numbers`.

Text is modelled as `List Char`.  Each Python regex is embedded as an
executable matcher with Python `re.search` semantics: scan positions left
to right, at each position apply the pattern with greedy/backtracking
semantics (the patterns involved only need bounded alternation
backtracking, which is implemented faithfully).  Machine integers do not
overflow in any of this code, so numbers are `Nat`/`Int`.
-/

namespace JobAutomate

/-! ### Character classes (Python `\d`, `\s`, `\w`) -/

/-- Python `\d` (ASCII range): one of the ten decimal digits. -/
def isDigitChar (c : Char) : Bool :=
  c = '0' || c = '1' || c = '2' || c = '3' || c = '4' ||
  c = '5' || c = '6' || c = '7' || c = '8' || c = '9'

/-- Python `\s` (ASCII range): space, tab, newline, carriage return,
vertical tab, form feed. -/
def isSpaceChar (c : Char) : Bool :=
  c = ' ' || c = '\t' || c = '\n' || c = '\r' || c = '\x0b' || c = '\x0c'

/-- Python `\w` (ASCII range): letters, digits, underscore. -/
def isWordChar (c : Char) : Bool := c.isAlphanum || c = '_'

/-- `\s*` — drop the maximal run of whitespace. -/
def skipSpaces : List Char → List Char
  | [] => []
  | c :: cs => if isSpaceChar c then skipSpaces cs else c :: cs

/-- `\d+` greedy — split off the maximal run of digits. -/
def takeDigits : List Char → List Char × List Char
  | [] => ([], [])
  | c :: cs =>
    if isDigitChar c then
      let p := takeDigits cs
      (c :: p.1, p.2)
    else ([], c :: cs)

/-- Numeric value of a digit run (`int(m.group(i))`). -/
def natOfDigits (ds : List Char) : Nat :=
  ds.foldl (fun a c => a * 10 + (c.toNat - '0'.toNat)) 0

def intOfDigits (ds : List Char) : Int := (natOfDigits ds : Int)

/-- Case-insensitive literal match (`re.I`): strip `pat` from the front of
`s`, comparing lowercased characters. -/
def stripCI (pat : List Char) (s : List Char) : Option (List Char) :=
  match pat, s with
  | [], rest => some rest
  | _ :: _, [] => none
  | p :: ps, c :: cs => if c.toLower = p.toLower then stripCI ps cs else none

/-- `(?:years?|yrs?)` with `re.I`: greedy alternation, returns the
remainder after the matched token. -/
def matchYears (s : List Char) : Option (List Char) :=
  match stripCI ['y', 'e', 'a', 'r'] s with
  | some rest =>
    match rest with
    | c :: cs => if c.toLower = 's' then some cs else some rest
    | [] => some rest
  | none =>
    match stripCI ['y', 'r'] s with
    | some rest =>
      match rest with
      | c :: cs => if c.toLower = 's' then some cs else some rest
      | [] => some rest
    | none => none

/-- `re.search` driver: try `matchAt` at every position, leftmost match
wins; the final empty position is also tried. -/
def searchFrom (matchAt : List Char → Option α) : List Char → Option α
  | [] => matchAt []
  | c :: cs =>
    match matchAt (c :: cs) with
    | some v => some v
    | none => searchFrom matchAt cs

/-- `re.search` driver for patterns that need the preceding character
(for `\b` or look-behind); `prev = none` at the start of the text. -/
def searchFromB (matchAt : Option Char → List Char → Option α) :
    Option Char → List Char → Option α
  | prev, [] => matchAt prev []
  | prev, c :: cs =>
    match matchAt prev (c :: cs) with
    | some v => some v
    | none => searchFromB matchAt (some c) cs

/-- First `some` in a list of attempts (alternation with priority). -/
def firstSome : List (Option α) → Option α
  | [] => none
  | some v :: _ => some v
  | none :: rest => firstSome rest

/-! ### `RANGE_RE = (\d+)\s*[-â€“]\s*(\d+)\s*(?:\+?\s*)?(?:years?|yrs?)`

The source file is mojibake-encoded: the character class between `-` and
`]` consists of the three characters `â`, `€`, `“` (a UTF-8 en dash read
back as cp1252), so the class accepts `-`, `â`, `€`, `“`. -/

def isRangeDash (c : Char) : Bool := c = '-' || c = 'â' || c = '€' || c = '“'

/-- Attempt `RANGE_RE` anchored at the current position. -/
def rangeMatchAt (s : List Char) : Option (Int × Int × List Char) :=
  let p1 := takeDigits s
  if p1.1.isEmpty then none
  else
    match skipSpaces p1.2 with
    | [] => none
    | c :: r3 =>
      if isRangeDash c then
        let p2 := takeDigits (skipSpaces r3)
        if p2.1.isEmpty then none
        else
          let r6 := skipSpaces p2.2
          let r7 := match r6 with
            | '+' :: t => skipSpaces t
            | _ => r6
          match matchYears r7 with
          | some rest => some (intOfDigits p1.1, intOfDigits p2.1, rest)
          | none => none
      else none

def rangeSearch (text : List Char) : Option (Int × Int) :=
  (searchFrom rangeMatchAt text).map (fun v => (v.1, v.2.1))

/-! ### `OR_MORE_RE = (\d+)\s*(?:\+|\bor more\b)\s*(?:years?|yrs?)` -/

/-- `\b` between a known previous character and the rest of the text. -/
def wordBoundary (prev : Option Char) (s : List Char) : Bool :=
  let pw := match prev with
    | none => false
    | some c => isWordChar c
  let nw := match s with
    | [] => false
    | c :: _ => isWordChar c
  pw != nw

/-- Attempt `OR_MORE_RE` anchored at the current position.  `prev` is the
character just before this position (needed for the `\b` before `or`). -/
def orMoreMatchAt (_prev : Option Char) (s : List Char) : Option (Int × List Char) :=
  let p := takeDigits s
  if p.1.isEmpty then none
  else
    let r2 := skipSpaces p.2
    -- the character preceding `r2`: a space if any was skipped, else the
    -- last digit of the group (`prev` is unused there because the digit
    -- group is nonempty)
    let prevR2 : Char := if r2.length = p.2.length then '0' else ' '
    let afterAlt : Option (List Char) :=
      match r2 with
      | '+' :: t => some t
      | _ =>
        if wordBoundary (some prevR2) r2 then
          match stripCI ['o', 'r', ' ', 'm', 'o', 'r', 'e'] r2 with
          | some rest => if wordBoundary (some 'e') rest then some rest else none
          | none => none
        else none
    match afterAlt with
    | some r3 =>
      match matchYears (skipSpaces r3) with
      | some rest => some (intOfDigits p.1, rest)
      | none => none
    | none => none

def orMoreSearch (text : List Char) : Option Int :=
  (searchFromB orMoreMatchAt none text).map (·.1)

/-! ### `SINGLE_RE =
  (?:at\s+least|min(?:imum)?(?:\s+of)?|minimum|required|over|more than)?\s*(\d+)\+?\s*(?:years?|yrs?)` -/

/-- `\s+` — at least one whitespace character, greedy. -/
def skipSpaces1 (s : List Char) : Option (List Char) :=
  match s with
  | c :: cs => if isSpaceChar c then some (skipSpaces cs) else none
  | [] => none

/-- All remainders the optional prefix group can leave, in regex priority
order (each alternative, its internal greedy options first, then the
empty prefix).  The tail of the pattern is tried against each in turn. -/
def singlePrefixCands (s : List Char) : List (List Char) :=
  let atLeast : List (List Char) :=
    match stripCI ['a', 't'] s with
    | some r =>
      match skipSpaces1 r with
      | some r2 =>
        match stripCI ['l', 'e', 'a', 's', 't'] r2 with
        | some r3 => [r3]
        | none => []
      | none => []
    | none => []
  let ofOpt : List Char → List (List Char) := fun r =>
    match skipSpaces1 r with
    | some r2 =>
      match stripCI ['o', 'f'] r2 with
      | some r3 => [r3, r]
      | none => [r]
    | none => [r]
  let minAlt : List (List Char) :=
    match stripCI ['m', 'i', 'n'] s with
    | some r =>
      (match stripCI ['i', 'm', 'u', 'm'] r with
       | some r2 => ofOpt r2
       | none => []) ++ ofOpt r
    | none => []
  let minimumAlt : List (List Char) :=
    match stripCI ['m', 'i', 'n', 'i', 'm', 'u', 'm'] s with
    | some r => [r]
    | none => []
  let requiredAlt : List (List Char) :=
    match stripCI ['r', 'e', 'q', 'u', 'i', 'r', 'e', 'd'] s with
    | some r => [r]
    | none => []
  let overAlt : List (List Char) :=
    match stripCI ['o', 'v', 'e', 'r'] s with
    | some r => [r]
    | none => []
  let moreThanAlt : List (List Char) :=
    match stripCI ['m', 'o', 'r', 'e', ' ', 't', 'h', 'a', 'n'] s with
    | some r => [r]
    | none => []
  atLeast ++ minAlt ++ minimumAlt ++ requiredAlt ++ overAlt ++ moreThanAlt ++ [s]

/-- The tail `\s*(\d+)\+?\s*(?:years?|yrs?)` of `SINGLE_RE`. -/
def singleMatchTail (r : List Char) : Option (Int × List Char) :=
  let p := takeDigits (skipSpaces r)
  if p.1.isEmpty then none
  else
    let r3 := match p.2 with
      | '+' :: t => t
      | _ => p.2
    match matchYears (skipSpaces r3) with
    | some rest => some (intOfDigits p.1, rest)
    | none => none

def singleMatchAt (s : List Char) : Option (Int × List Char) :=
  firstSome ((singlePrefixCands s).map singleMatchTail)

def singleSearch (text : List Char) : Option Int :=
  (searchFrom singleMatchAt text).map (·.1)

/-! ### `UP_TO_RE = (?:up to|upto)\s*(\d+)\s*(?:years?|yrs?)` -/

/-- The `\s*(\d+)\s*(?:years?|yrs?)` tail of `UP_TO_RE`. -/
def upToTail (r0 : List Char) : Option (Int × List Char) :=
  let p := takeDigits (skipSpaces r0)
  if p.1.isEmpty then none
  else
    match matchYears (skipSpaces p.2) with
    | some rest => some (intOfDigits p.1, rest)
    | none => none

def upToMatchAt (s : List Char) : Option (Int × List Char) :=
  match stripCI ['u', 'p', ' ', 't', 'o'] s with
  | some r0 => upToTail r0
  | none =>
    match stripCI ['u', 'p', 't', 'o'] s with
    | some r0 => upToTail r0
    | none => none

def upToSearch (text : List Char) : Option Int :=
  (searchFrom upToMatchAt text).map (·.1)

/-! ### `ENTRY_LEVEL_RE = \b(entry[- ]level|fresher|graduate|intern(ship)?|junior)\b` -/

/-- `\b` after a word character: next must be non-word or end. -/
def boundaryAfterWord (s : List Char) : Bool :=
  match s with
  | [] => true
  | c :: _ => !isWordChar c

def entryLevelMatchAt (prev : Option Char) (s : List Char) : Option Unit :=
  -- all alternatives start with a word character, so the leading `\b`
  -- requires the previous character to be absent or non-word
  let headOk := match prev with
    | none => true
    | some c => !isWordChar c
  if !headOk then none
  else
    let done : List Char → Option Unit := fun r =>
      if boundaryAfterWord r then some () else none
    let entryLevel : Option Unit :=
      match stripCI ['e', 'n', 't', 'r', 'y'] s with
      | some r =>
        (match r with
         | c :: cs =>
           if c = '-' || c = ' ' then
             match stripCI ['l', 'e', 'v', 'e', 'l'] cs with
             | some r2 => done r2
             | none => none
           else none
         | [] => none)
      | none => none
    let fresher : Option Unit :=
      match stripCI ['f', 'r', 'e', 's', 'h', 'e', 'r'] s with
      | some r => done r
      | none => none
    let graduate : Option Unit :=
      match stripCI ['g', 'r', 'a', 'd', 'u', 'a', 't', 'e'] s with
      | some r => done r
      | none => none
    let internAlt : Option Unit :=
      match stripCI ['i', 'n', 't', 'e', 'r', 'n'] s with
      | some r =>
        -- `(ship)?` greedy, with backtracking against the trailing `\b`
        (match stripCI ['s', 'h', 'i', 'p'] r with
         | some r2 =>
           match done r2 with
           | some u => some u
           | none => done r
         | none => done r)
      | none => none
    let junior : Option Unit :=
      match stripCI ['j', 'u', 'n', 'i', 'o', 'r'] s with
      | some r => done r
      | none => none
    firstSome [entryLevel, fresher, graduate, internAlt, junior]

def entrySearch (text : List Char) : Bool :=
  (searchFromB entryLevelMatchAt none text).isSome

/-! ### `SENIORITY_RE = \b(senior|sr\.?|staff|principal|lead)\b` -/

def seniorityMatchAt (prev : Option Char) (s : List Char) : Option Unit :=
  let headOk := match prev with
    | none => true
    | some c => !isWordChar c
  if !headOk then none
  else
    let done : List Char → Option Unit := fun r =>
      if boundaryAfterWord r then some () else none
    let seniorAlt : Option Unit :=
      match stripCI ['s', 'e', 'n', 'i', 'o', 'r'] s with
      | some r => done r
      | none => none
    let srAlt : Option Unit :=
      match stripCI ['s', 'r'] s with
      | some r =>
        -- `\.?` greedy; after a consumed dot the `\b` needs a word char next
        (match r with
         | '.' :: r2 =>
           (match r2 with
            | c :: _ => if isWordChar c then some () else done r
            | [] => done r)
         | _ => done r)
      | none => none
    let staffAlt : Option Unit :=
      match stripCI ['s', 't', 'a', 'f', 'f'] s with
      | some r => done r
      | none => none
    let principalAlt : Option Unit :=
      match stripCI ['p', 'r', 'i', 'n', 'c', 'i', 'p', 'a', 'l'] s with
      | some r => done r
      | none => none
    let leadAlt : Option Unit :=
      match stripCI ['l', 'e', 'a', 'd'] s with
      | some r => done r
      | none => none
    firstSome [seniorAlt, srAlt, staffAlt, principalAlt, leadAlt]

def senioritySearch (text : List Char) : Bool :=
  (searchFromB seniorityMatchAt none text).isSome

/-! ### `_extract_experience` (`app/services/enrichment.py`) -/

structure Flags where
  entry_level : Bool
  senior : Bool
deriving DecidableEq, Repr

/-- Embedding of `_extract_experience(text)`: returns
`(min_years, max_years, flags)`. -/
def extract_experience (text : List Char) : Option Int × Option Int × Flags :=
  if text.isEmpty then (none, none, ⟨false, false⟩)
  else
    match rangeSearch text with
    | some (mn, mx) => (some mn, some mx, ⟨entrySearch text, false⟩)
    | none =>
      match orMoreSearch text with
      | some n => (some n, none, ⟨entrySearch text, false⟩)
      | none =>
        match singleSearch text with
        | some n => (some n, none, ⟨entrySearch text, false⟩)
        | none =>
          match upToSearch text with
          | some n => (some 0, some n, ⟨entrySearch text, false⟩)
          | none => (none, none, ⟨entrySearch text, senioritySearch text⟩)

/-! ### The match scorer (decision block of `enrich_jobs_with_match`,
`app/services/enrichment.py` lines 69–87) -/

/-- The scorer's decision, verbatim from the code:
`entry_level` branch computes `user_years >= 0`; then
`exp_min is not None and exp_min > user_years`; then
`senior and exp_min is None and user_years <= 2`; else match, with the
reason depending on `exp_min` / truthiness of `exp_max`.
The `â€“` in the "Minimum" reason is mojibake present in the source. -/
def scoreMatch (expMin expMax : Option Int) (flags : Flags) (userYears : Int) :
    Bool × String :=
  if flags.entry_level then
    (decide (0 ≤ userYears), "Entry-level / fresher role")
  else
    match expMin with
    | some mn =>
      if userYears < mn then
        (false, "Requires " ++ toString mn ++ "+ years; user has " ++ toString userYears)
      else
        match expMax with
        | some mx =>
          if mx = 0 then (true, "Minimum " ++ toString mn ++ " years â€“ OK")
          else (true, "Matches range " ++ toString mn ++ "-" ++ toString mx ++ " years")
        | none => (true, "Minimum " ++ toString mn ++ " years â€“ OK")
    | none =>
      if flags.senior ∧ userYears ≤ 2 then
        (false, "Senior-level keywords detected")
      else
        (true, "No explicit experience requirement found")

/-! ### Job records

A Python job dict.  `none` in an `Option` field means the key is absent
(`"title" in j` is `title.isSome`; `j.get("title", "")` is
`title.getD ""`).  The enrichment fields model the values carried by
records that have passed through enrichment (before enrichment they hold
the defaults). -/

structure JobRec where
  company : String := ""
  title : Option String := none
  location : Option String := none
  description : Option String := none
  apply_url : Option String := none
  error : Option String := none
  note : Option String := none
  detail : Option String := none
  experience_min : Option Int := none
  experience_max : Option Int := none
  matched : Bool := false
  match_reason : String := ""
deriving DecidableEq, Repr

/-- Enrichment of a single job (`enrich_jobs_with_match` loop body):
`text_blob = " ".join([title, description])`, extract, score, and set the
four fields on the record. -/
def enrichJob (userYears : Int) (job : JobRec) : JobRec :=
  let textBlob := (job.title.getD "") ++ " " ++ (job.description.getD "")
  let e := extract_experience textBlob.toList
  let d := scoreMatch e.1 e.2.1 e.2.2 userYears
  { job with
    experience_min := e.1
    experience_max := e.2.1
    matched := d.1
    match_reason := d.2 }

/-- `enrich_jobs_with_match(jobs, user_years)` — enriches every record
(in Python the list is mutated in place and also returned). -/
def enrich_jobs_with_match (jobs : List JobRec) (userYears : Int) : List JobRec :=
  jobs.map (enrichJob userYears)

/-! ### Persistence (`save_jobs_to_db`, `app/services/scraper_manager.py`)

The `jobs` table (`app/models/jobs.py`): surrogate `id`, a unique
constraint on `apply_url`, and `created_at` set by the server at first
insert only.  A database is a list of rows plus the id sequence; the
insert timestamp is a parameter of each save call. -/

structure Row where
  id : Nat
  company : String
  title : String
  location : String
  description : String
  apply_url : String
  experience_min : Option Int
  experience_max : Option Int
  matched : Bool
  match_reason : String
  created_at : Nat
deriving DecidableEq, Repr

structure Db where
  rows : List Row
  nextId : Nat
deriving DecidableEq, Repr

/-- `not job.get("title") or not job.get("apply_url")` — the skip guard
(missing key and empty string are both falsy). -/
def validJob (j : JobRec) : Bool :=
  !(j.title.getD "" == "") && !(j.apply_url.getD "" == "")

def keyOf (j : JobRec) : String := j.apply_url.getD ""

/-- The `set_` clause of `on_conflict_do_update`: every mutable field is
overwritten; `id`, `apply_url` and `created_at` are not touched. -/
def mutUpdate (j : JobRec) (r : Row) : Row :=
  { r with
    company := j.company
    title := j.title.getD ""
    location := j.location.getD ""
    description := j.description.getD ""
    experience_min := j.experience_min
    experience_max := j.experience_max
    matched := j.matched
    match_reason := j.match_reason }

/-- The `values(...)` clause on first insert: fresh surrogate id, insert
timestamp `t`. -/
def newRow (t : Nat) (idv : Nat) (j : JobRec) : Row :=
  { id := idv
    company := j.company
    title := j.title.getD ""
    location := j.location.getD ""
    description := j.description.getD ""
    apply_url := j.apply_url.getD ""
    experience_min := j.experience_min
    experience_max := j.experience_max
    matched := j.matched
    match_reason := j.match_reason
    created_at := t }

/-- One `INSERT ... ON CONFLICT (apply_url) DO UPDATE` statement. -/
def upsertOne (t : Nat) (db : Db) (j : JobRec) : Db :=
  if db.rows.any (fun r => r.apply_url == keyOf j) then
    { db with rows := db.rows.map (fun r => if r.apply_url == keyOf j then mutUpdate j r else r) }
  else
    { rows := db.rows ++ [newRow t db.nextId j], nextId := db.nextId + 1 }

/-- The statement loop of `save_jobs_to_db` applied directly (the
committed effect): invalid jobs are skipped, valid ones upserted in
order. -/
def execUpserts (t : Nat) : Db → List JobRec → Db
  | db, [] => db
  | db, j :: js => execUpserts t (if validJob j then upsertOne t db j else db) js

/-- The transaction body: build up the working state, statement by
statement.  `failAt = some k` means the `k`-th `db.execute` (0-based,
counting only valid jobs) raises; `none` is returned in that case. -/
def saveGo (failAt : Option Nat) (t : Nat) : Db → Nat → List JobRec → Option Db
  | w, _, [] => some w
  | w, step, j :: js =>
    if validJob j then
      if failAt = some step then none
      else saveGo failAt t (upsertOne t w j) (step + 1) js
    else saveGo failAt t w step js

/-- `save_jobs_to_db(jobs)` against durable state `db`.  The whole loop
runs inside one transaction: the working state becomes durable only at
`db.commit()`; any raised error (`failAt = some k`, which also covers a
failing commit when `k` is past the last statement) triggers
`db.rollback()`, leaving the durable state unchanged. -/
def save_jobs_to_db (failAt : Option Nat) (t : Nat) (db : Db) (jobs : List JobRec) : Db :=
  match failAt, saveGo failAt t db 0 jobs with
  | none, some w => w
  | _, _ => db

/-- The `jobs` table's unique constraint on `apply_url`. -/
def uniqueKeys (db : Db) : Prop := (db.rows.map (fun r => r.apply_url)).Nodup

/-- The natural keys of the batch items that pass the skip guard. -/
def validKeys (b : List JobRec) : List String := (b.filter validJob).map keyOf

/-- The stored row for a natural key, if any. -/
def lookupRow (db : Db) (u : String) : Option Row :=
  db.rows.find? (fun r => r.apply_url == u)

/-- All stored rows carrying a natural key. -/
def rowsFor (db : Db) (u : String) : List Row :=
  db.rows.filter (fun r => r.apply_url == u)

/-- A row agrees with a batch item on every mutable column. -/
def mutEq (r : Row) (j : JobRec) : Prop :=
  r.company = j.company ∧ r.title = j.title.getD "" ∧
  r.location = j.location.getD "" ∧ r.description = j.description.getD "" ∧
  r.experience_min = j.experience_min ∧ r.experience_max = j.experience_max ∧
  r.matched = j.matched ∧ r.match_reason = j.match_reason

/-! ### Aggregation (`scrape_company` / `scrape_jobs_multi`,
`app/services/scraper_manager.py`)

The four concrete scrapers perform network/browser I/O; they are
parameters of the model.  Each returns either a job list or raises
(`Except.error`).  The Zoho and Google scrapers' items never carry a
`company` key (verified in their sources), so `{"company": "Zoho", **job}`
sets the company label unconditionally. -/

structure Adapters where
  zoho : String → String → Except String (List JobRec)
  google : String → String → Except String (List JobRec)
  microsoft : String → String → Except String (List JobRec)
  amazon : String → String → Except String (List JobRec)

/-- `{"company": name, **job}` — the Zoho/Google items never carry a
`company` key, so the label is set unconditionally. -/
def labelCompany (name : String) (j : JobRec) : JobRec := { j with company := name }

/-- Python `str.lower()` (ASCII range, which covers every company name
compared against). -/
def strLower (s : String) : String := String.mk (s.toList.map Char.toLower)

def USER_YEARS : Int := 2

def SELENIUM_COMPANIES : List String := ["microsoft", "amazon"]

/-- `scrape_company(company, role, location)`.  The Microsoft and Amazon
branches call `save_jobs_to_db(jobs)` on their raw results before
returning, so the durable state is threaded; `oracle`/`t` parametrise
that internal save call.  Unknown companies fall through to the
"Scraper not implemented" record. -/
def scrape_company (A : Adapters) (oracle : Option Nat) (t : Nat) (db : Db)
    (company role location : String) : Except String (List JobRec) × Db :=
  if strLower company = "zoho" then
    match A.zoho role location with
    | .ok jobs => (.ok (jobs.map (labelCompany "Zoho")), db)
    | .error e => (.error e, db)
  else if strLower company = "google" then
    match A.google role location with
    | .ok jobs => (.ok (jobs.map (labelCompany "Google")), db)
    | .error e => (.error e, db)
  else if strLower company = "microsoft" then
    match A.microsoft role location with
    | .ok jobs => (.ok jobs, save_jobs_to_db oracle t db jobs)
    | .error e => (.error e, db)
  else if strLower company = "amazon" then
    match A.amazon role location with
    | .ok jobs => (.ok jobs, save_jobs_to_db oracle t db jobs)
    | .error e => (.error e, db)
  else
    (.ok [{ company := company, error := some "Scraper not implemented" }], db)

def isSelenium (c : String) : Bool := SELENIUM_COMPANIES.contains (strLower c)

/-- One step of the sequential Selenium loop: the call is wrapped in
`try/except`, a raised exception becomes `[{"company": c, "error": str(e)}]`. -/
def heavyStep (A : Adapters) (t : Nat) (role location : String)
    (oracles : Nat → Option Nat) (acc : List (List JobRec) × Db × Nat) (c : String) :
    List (List JobRec) × Db × Nat :=
  match scrape_company A (oracles acc.2.2) t acc.2.1 c role location with
  | (.ok js, d') => (acc.1 ++ [js], d', acc.2.2 + 1)
  | (.error e, d') => (acc.1 ++ [[{ company := c, error := some e }]], d', acc.2.2 + 1)

/-- A Selenium-class company's contribution to the combined batch: its
fetched list when the call returns, and the single caught-exception
record named after the company when it raises. -/
def heavyConvert (r : Except String (List JobRec)) (c : String) : List JobRec :=
  match r with
  | .ok js => js
  | .error e => [{ company := c, error := some e }]

/-- `scrape_jobs_multi(companies, role, location)`.

Non-Selenium scrapers run under `asyncio.gather` (all are invoked; they
perform no persistence; results are collected in argument order, and an
exception in any of them propagates out of the whole function — the
model surfaces the first in list order).  Selenium scrapers then run
strictly in sequence with per-company exception capture.  The combined
list is filtered on the presence of a `title` key, enriched in place
(`USER_YEARS = 2`), saved, and the combined list — with the titled
records enriched by that in-place mutation — is returned.
`oracles k` is the failure oracle of the `k`-th save call performed
during the run (internal Selenium saves first, the final batch save
last); `t` is the insert timestamp. -/
def scrape_jobs_multi (A : Adapters) (oracles : Nat → Option Nat) (t : Nat) (db : Db)
    (companies : List String) (role location : String) :
    Except String (List JobRec) × Db :=
  let lights := companies.filter (fun c => !isSelenium c)
  match lights.mapM (fun c => (scrape_company A none t db c role location).1) with
  | .error e => (.error e, db)
  | .ok lightLists =>
    let h := (companies.filter isSelenium).foldl (heavyStep A t role location oracles)
      ([], db, 0)
    let combined := (lightLists ++ h.1).flatten
    let combined' := combined.map (fun j => if j.title.isSome then enrichJob USER_YEARS j else j)
    let realJobs := combined'.filter (fun j => j.title.isSome)
    (.ok combined', save_jobs_to_db (oracles h.2.2) t h.2.1 realJobs)

/-! ### The search endpoint (`search_multi_jobs`, `app/api/jobs.py`) -/

/-- Python falsiness of an optional string: `None` or `""`. -/
def falsyOpt (s : Option String) : Bool := s.getD "" == ""

/-- `POST /jobs/search`: reject degenerate queries with a single note
record before any scraping; otherwise run the pipeline, substituting a
"No jobs found" note for an empty result list. -/
def search_multi_jobs (A : Adapters) (oracles : Nat → Option Nat) (t : Nat) (db : Db)
    (companies : List String) (role location : Option String) :
    Except String (List JobRec) × Db :=
  if falsyOpt role && falsyOpt location then
    (.ok [{ note := some "Please provide role or location" }], db)
  else
    match scrape_jobs_multi A oracles t db companies (role.getD "") (location.getD "") with
    | (.ok results, db') =>
      (.ok (if results.isEmpty then [{ note := some "No jobs found" }] else results), db')
    | (.error e, db') => (.error e, db')

/-! ### The Microsoft scraper's own extractor
(`_extract_experience_numbers`, `app/services/scrappers/microsoft_scraper.py`)

Its patterns differ from the shared inferencer's: digit groups are
capped at two digits (`\d{1,2}`), the range pattern has a `(?<!\d)`
look-behind, and — crucially — every captured number is kept only if
`0 < n <= 60`. -/

/-- `NORMALIZE_REPLACEMENTS` plus the `"\\u002B"`→`"+"` replacement,
applied characterwise / sequencewise as `str.replace` does. -/
def msNormalizeChar (c : Char) : List Char :=
  if c = '’' then ['\''] else if c = '‘' then ['\'']
  else if c = '“' then ['"'] else if c = '”' then ['"']
  else if c = '–' then ['-'] else if c = '—' then ['-']
  else if c = ' ' then [' '] else if c = '​' then []
  else [c]

def replaceEscapedPlus : List Char → List Char
  | '\\' :: 'u' :: '0' :: '0' :: '2' :: 'B' :: rest => '+' :: replaceEscapedPlus rest
  | c :: rest => c :: replaceEscapedPlus rest
  | [] => []

def msNormalize (s : List Char) : List Char :=
  replaceEscapedPlus (s.flatMap msNormalizeChar)

/-- `\d{1,2}` greedy with backtracking: the candidate digit groups in
priority order (two digits first). -/
def take12Digits (s : List Char) : List (List Char × List Char) :=
  match s with
  | a :: b :: rest =>
    if isDigitChar a then
      if isDigitChar b then [([a, b], rest), ([a], b :: rest)]
      else [([a], b :: rest)]
    else []
  | [a] => if isDigitChar a then [([a], [])] else []
  | [] => []

def isMsDash (c : Char) : Bool := c = '-' || c = '–'

/-- The MS range pattern
`(?<!\d)(\d{1,2})\s*[-–]\s*(\d{1,2})\s*(?:\+?\s*)?(?:years?|yrs?)`
anchored at the current position (`prev` for the look-behind). -/
def msRangeMatchAt (prev : Option Char) (s : List Char) : Option ((Int × Int) × List Char) :=
  if (match prev with | some c => isDigitChar c | none => false) then none
  else
    firstSome ((take12Digits s).map (fun p1 =>
      match skipSpaces p1.2 with
      | [] => none
      | c :: r3 =>
        if isMsDash c then
          firstSome ((take12Digits (skipSpaces r3)).map (fun p2 =>
            let r6 := skipSpaces p2.2
            let r7 := match r6 with
              | '+' :: u => skipSpaces u
              | _ => r6
            match matchYears r7 with
            | some rest => some ((intOfDigits p1.1, intOfDigits p2.1), rest)
            | none => none))
        else none))

/-- The MS single pattern
`(?:(?:at\s+least|min(?:imum)?(?:\s+of)?|minimum|required|over|more than)\s*)?(\d{1,2})\s*\+?\s*(?:years?|yrs?)`
anchored at the current position. -/
def msSingleMatchAt (_prev : Option Char) (s : List Char) : Option (Int × List Char) :=
  let tail : List Char → Option (Int × List Char) := fun r =>
    firstSome ((take12Digits r).map (fun p =>
      let r2 := skipSpaces p.2
      let r3 := match r2 with
        | '+' :: u => u
        | _ => r2
      match matchYears (skipSpaces r3) with
      | some rest => some (intOfDigits p.1, rest)
      | none => none))
  -- prefix alternatives are followed by `\s*` inside the optional group
  let cands := ((singlePrefixCands s).dropLast.map skipSpaces) ++ [s]
  firstSome (cands.map tail)

/-- `finditer`: non-overlapping successive matches, resuming after each
match's end; `prev` tracks the character before the current position for
look-behind/boundary checks.  Each match consumes at least one
character, so `s.length + 1` steps of fuel always suffice. -/
def finditerAux (matchAt : Option Char → List Char → Option (α × List Char)) :
    Nat → Option Char → List Char → List α
  | 0, _, _ => []
  | fuel + 1, prev, s =>
    match matchAt prev s with
    | some (v, rest) =>
      v :: finditerAux matchAt fuel ((s.take (s.length - rest.length)).getLast?) rest
    | none =>
      match s with
      | [] => []
      | c :: cs => finditerAux matchAt fuel (some c) cs

def finditer (matchAt : Option Char → List Char → Option (α × List Char))
    (s : List Char) : List α :=
  finditerAux matchAt (s.length + 1) none s

/-- Sorted insertion without duplicates (the Python `set` + `sorted`). -/
def insertSortedUnique (n : Int) : List Int → List Int
  | [] => [n]
  | m :: ms =>
    if n < m then n :: m :: ms
    else if n = m then m :: ms
    else m :: insertSortedUnique n ms

/-- The `nums` set of `_extract_experience_numbers`: every number
captured by either pattern that passes the `0 < n <= 60` guard, kept
sorted without duplicates (the Python `set` + `sorted`). -/
def msNums (t : List Char) : List Int :=
  let rangePairs := finditer msRangeMatchAt t
  let singles := finditer msSingleMatchAt t
  let nums₁ := rangePairs.foldl (fun acc p =>
    let acc' := if 0 < p.1 ∧ p.1 ≤ 60 then insertSortedUnique p.1 acc else acc
    if 0 < p.2 ∧ p.2 ≤ 60 then insertSortedUnique p.2 acc' else acc') []
  singles.foldl (fun acc n =>
    if 0 < n ∧ n ≤ 60 then insertSortedUnique n acc else acc) nums₁

/-- The tail of `_extract_experience_numbers`: `exp_min` is the least
candidate, `exp_max` the greatest when distinct from it. -/
def msResult (nums : List Int) : Option Int × Option Int × List Int :=
  match nums with
  | [] => (none, none, [])
  | m :: rest =>
    let lastv := rest.getLastD m
    (some m,
     if (m :: rest).length > 1 ∧ lastv ≠ m then some lastv else none,
     m :: rest)

/-- `_extract_experience_numbers(text)` — returns
`(exp_min, exp_max, sorted_candidates)`. -/
def extract_experience_numbers (text : List Char) :
    Option Int × Option Int × List Int :=
  if text.isEmpty then (none, none, [])
  else msResult (msNums (msNormalize text))

/-- A trivial adapter family (used to instantiate witnesses). -/
def noAdapters : Adapters :=
  ⟨fun _ _ => .ok [], fun _ _ => .ok [], fun _ _ => .ok [], fun _ _ => .ok []⟩

/-- An always-failing adapter family (used to instantiate witnesses). -/
def errAdapters : Adapters :=
  ⟨fun _ _ => .error "down", fun _ _ => .error "down",
   fun _ _ => .error "down", fun _ _ => .error "down"⟩

/-- Concrete adapter family for the C4 witness: Microsoft raises, the
other three return fixed batches. -/
def crashingAdapters : Adapters :=
  ⟨fun _ _ => .ok [{ title := some "Z", apply_url := some "z1" }],
   fun _ _ => .ok [{ title := some "G", apply_url := some "g1" }],
   fun _ _ => .error "selenium crashed",
   fun _ _ => .ok [{ company := "Amazon", title := some "A", apply_url := some "a1" }]⟩

/-- Concrete records for the C3 witness. -/
def wj1 : JobRec :=
  { company := "Zoho", title := some "Dev", apply_url := some "u1",
    experience_min := some 3, matched := true, match_reason := "ok" }

def wj2 : JobRec :=
  { company := "Google", title := some "Eng", apply_url := some "u2",
    match_reason := "r" }

/-! ## Helper lemmas -/

theorem digit_char_cases {c : Char} (h : isDigitChar c = true) :
    c = '0' ∨ c = '1' ∨ c = '2' ∨ c = '3' ∨ c = '4' ∨
    c = '5' ∨ c = '6' ∨ c = '7' ∨ c = '8' ∨ c = '9' := by
  simp only [isDigitChar, Bool.or_eq_true, decide_eq_true_eq] at h
  tauto

theorem rangeSearch_nil : rangeSearch [] = none := rfl

theorem intOfDigits_nonneg (ds : List Char) : 0 ≤ intOfDigits ds :=
  Int.natCast_nonneg _

/-- A string with a nonempty prefix is not empty. -/
theorem append_ne_empty_of_left (s u : String) (h : s.length ≠ 0) : s ++ u ≠ "" := by
  intro he
  apply h
  have hl := congrArg String.length he
  rw [String.length_append] at hl
  simpa using Nat.eq_zero_of_add_eq_zero_right hl

/-! ## C1 — an explicit numeric range pattern wins -/

/-- C1: whenever `RANGE_RE` matches the text (`rangeSearch` is the
embedded `RANGE_RE.search`, returning the leftmost match's two capture
groups), `_extract_experience` returns exactly `(min=N, max=M)` — no
other numeric pattern in the text is even consulted, so the range
pattern takes priority over any single-bound pattern also present. -/
theorem extract_range_priority (t : List Char) (n m : Int)
    (h : rangeSearch t = some (n, m)) :
    extract_experience t = (some n, some m, ⟨entrySearch t, false⟩) := by
  have ht : ¬ t.isEmpty = true := by
    intro he
    rw [List.isEmpty_iff.mp he, rangeSearch_nil] at h
    exact Option.noConfusion h
  unfold extract_experience
  rw [if_neg ht, h]

/-- C1 witness: the spec's own scenario text. -/
theorem extract_range_priority_witness :
    extract_experience "5-8 years of experience required".toList
      = (some 5, some 8, ⟨entrySearch "5-8 years of experience required".toList, false⟩) :=
  extract_range_priority _ 5 8 (by decide)

/-! ## C2 — the match scorer's precedence -/

/-- C2 counterexample: the claim asserts the entry-level flag yields
`match = true` for every `candidate_years` value, but the code computes
`user_years >= 0` in that branch, so a negative candidate-years input
yields `match = false`. -/
theorem scoreMatch_entry_negative :
    scoreMatch none none ⟨true, false⟩ (-1) = (false, "Entry-level / fresher role") ∧
    (scoreMatch none none ⟨true, false⟩ (-1)).1 ≠ true := by
  constructor
  · decide
  · decide

/-- C2 (amended): for every `candidate_years ≥ 0` the scorer follows the
stated precedence: entry-level flag ⇒ `match = true`; else a known `min`
exceeding `candidate_years` ⇒ `match = false` with the gap reason; else
senior flag with no numeric min and `candidate_years ≤ 2` ⇒
`match = false` with the senior reason; else `match = true`. -/
theorem scoreMatch_precedence (mn mx : Option Int) (f : Flags) (y : Int)
    (hy : 0 ≤ y) :
    (f.entry_level = true →
      scoreMatch mn mx f y = (true, "Entry-level / fresher role")) ∧
    (f.entry_level = false → ∀ v, mn = some v → y < v →
      scoreMatch mn mx f y
        = (false, "Requires " ++ toString v ++ "+ years; user has " ++ toString y)) ∧
    (f.entry_level = false → f.senior = true → mn = none → y ≤ 2 →
      scoreMatch mn mx f y = (false, "Senior-level keywords detected")) ∧
    (f.entry_level = false → (∀ v, mn = some v → v ≤ y) →
      (f.senior = true → mn = none → 2 < y) →
      (scoreMatch mn mx f y).1 = true) := by
  refine ⟨?_, ?_, ?_, ?_⟩
  · intro hf
    simp [scoreMatch, hf, hy]
  · intro hf v hmn hvy
    subst hmn
    simp [scoreMatch, hf, hvy]
  · intro hf hs hmn hy2
    subst hmn
    simp [scoreMatch, hf, hs, hy2]
  · intro hf hmin hsen
    match hmx : mn with
    | some v =>
      have hv := hmin v rfl
      cases mx with
      | none => simp [scoreMatch, hf, not_lt.mpr hv]
      | some w =>
        by_cases hw : w = 0 <;> simp [scoreMatch, hf, not_lt.mpr hv, hw]
    | none =>
      cases hfs : f.senior with
      | false => simp [scoreMatch, hf, hfs]
      | true => simp [scoreMatch, hf, hfs, not_le.mpr (hsen hfs rfl)]

/-- C2 witness: a concrete instantiation of the precedence theorem. -/
theorem scoreMatch_precedence_witness :
    scoreMatch (some 5) none ⟨false, false⟩ 3
      = (false, "Requires " ++ toString (5 : Int) ++ "+ years; user has "
          ++ toString (3 : Int)) :=
  (scoreMatch_precedence (some 5) none ⟨false, false⟩ 3 (by decide)).2.1
    rfl 5 rfl (by decide)

/-! ## C7 / C8 / C9 counterexamples (shared inferencer behaviour) -/

/-- C7 counterexample: the shared inferencer has no plausibility bound:
`"100 years"` yields `min = 100`, not `(None, None)` as claimed. -/
theorem extract_hundred_years :
    extract_experience "100 years".toList = (some 100, none, ⟨false, false⟩) ∧
    (extract_experience "100 years".toList).1 ≠ none := by
  constructor
  · decide
  · decide

/-- C8 counterexample: for a text whose only experience mention is
"up to 3 years", the inferencer returns `(min = 3, max = None)` — the
bare `SINGLE_RE` matches the embedded "3 years" before the up-to rule is
reached — not `(min = 0, max = 3)` as claimed. -/
theorem extract_up_to_counterexample :
    extract_experience "up to 3 years".toList = (some 3, none, ⟨false, false⟩) ∧
    extract_experience "up to 3 years".toList ≠ (some 0, some 3, ⟨false, false⟩) := by
  constructor
  · decide
  · decide

/-- C9 counterexample: a reversed textual range is copied verbatim, so
the invariant `experience_max ≥ experience_min` fails on the enriched
record for the title "10-2 years". -/
theorem enrich_reversed_range :
    (enrich_jobs_with_match [{ title := some "10-2 years" }] 2).map
        (fun j => (j.experience_min, j.experience_max))
      = [(some 10, some 2)] ∧
    ¬ ((10 : Int) ≤ 2) := by
  constructor
  · decide
  · decide

/-! ## C5 — degenerate query short-circuit -/

/-- C5: with falsy `role` and `location` the search operation returns
exactly one note record, and its outcome is independent of every
adapter, persistence oracle, timestamp, database state and company list
— the shallow-embedding statement that no source adapter is invoked and
nothing is fetched. -/
theorem search_empty_query (A A' : Adapters) (o o' : Nat → Option Nat)
    (t t' : Nat) (db db' : Db) (cs cs' : List String)
    (role location : Option String)
    (hr : falsyOpt role = true) (hl : falsyOpt location = true) :
    search_multi_jobs A o t db cs role location
      = (.ok [{ note := some "Please provide role or location" }], db) ∧
    (search_multi_jobs A o t db cs role location).1
      = (search_multi_jobs A' o' t' db' cs' role location).1 := by
  constructor
  · simp [search_multi_jobs, hr, hl]
  · simp [search_multi_jobs, hr, hl]

/-- C5 witness. -/
theorem search_empty_query_witness :
    falsyOpt (some "") = true ∧ falsyOpt none = true ∧
    search_multi_jobs noAdapters (fun _ => none) 0 ⟨[], 0⟩ ["zoho"] (some "") none
      = (.ok [{ note := some "Please provide role or location" }], (⟨[], 0⟩ : Db)) :=
  ⟨by decide, by decide,
   (search_empty_query noAdapters errAdapters (fun _ => none) (fun _ => none)
      0 1 ⟨[], 0⟩ ⟨[], 0⟩ ["zoho"] [] (some "") none (by decide) (by decide)).1⟩

/-! ## C10 — unknown companies become inline error records -/

theorem save_jobs_to_db_empty (o : Option Nat) (t : Nat) (db : Db) :
    save_jobs_to_db o t db [] = db := by
  cases o <;> rfl

/-- C10: a company whose lowercase name is none of the four implemented
scrapers produces exactly one `{company, error: "Scraper not
implemented"}` record from `scrape_company`, and `scrape_jobs_multi`
carries that record inline in its successful result (no exception). -/
theorem scrape_unknown_company (A : Adapters) (o : Option Nat)
    (os : Nat → Option Nat) (t : Nat) (db : Db) (c role location : String)
    (h : strLower c ∉ (["zoho", "google", "microsoft", "amazon"] : List String)) :
    scrape_company A o t db c role location
      = (.ok [{ company := c, error := some "Scraper not implemented" }], db) ∧
    scrape_jobs_multi A os t db [c] role location
      = (.ok [{ company := c, error := some "Scraper not implemented" }], db) := by
  have h1 : ¬ (strLower c = "zoho") := fun he => h (by simp [he])
  have h2 : ¬ (strLower c = "google") := fun he => h (by simp [he])
  have h3 : ¬ (strLower c = "microsoft") := fun he => h (by simp [he])
  have h4 : ¬ (strLower c = "amazon") := fun he => h (by simp [he])
  have hgen : ∀ (o' : Option Nat) (db' : Db),
      scrape_company A o' t db' c role location
        = (.ok [{ company := c, error := some "Scraper not implemented" }], db') := by
    intro o' db'
    simp [scrape_company, h1, h2, h3, h4]
  have hsel : isSelenium c = false := by
    simp [isSelenium, SELENIUM_COMPANIES, h3, h4]
  refine ⟨hgen o db, ?_⟩
  have hfst : (scrape_company A none t db c role location).1
      = .ok [{ company := c, error := some "Scraper not implemented" }] := by
    rw [hgen none db]
  have hmap : ([c].mapM (fun x => (scrape_company A none t db x role location).1))
      = .ok [[{ company := c, error := some "Scraper not implemented" }]] := by
    rw [List.mapM_cons, List.mapM_nil, hfst]
    rfl
  simp only [scrape_jobs_multi, hsel, List.filter_cons, List.filter_nil,
    Bool.not_false, Bool.not_true, if_true, if_false, hmap]
  simp [save_jobs_to_db_empty]

/-- C10 witness. -/
theorem scrape_unknown_company_witness :
    strLower "netflix" ∉ (["zoho", "google", "microsoft", "amazon"] : List String) ∧
    scrape_company noAdapters none 0 ⟨[], 0⟩ "netflix" "dev" "blr"
      = (.ok [{ company := "netflix", error := some "Scraper not implemented" }],
         (⟨[], 0⟩ : Db)) :=
  ⟨by decide,
   (scrape_unknown_company noAdapters none (fun _ => none) 0 ⟨[], 0⟩
      "netflix" "dev" "blr" (by decide)).1⟩

/-! ## C6 — transactional persistence, isolated from the returned batch -/

theorem saveGo_none (t : Nat) (jobs : List JobRec) : ∀ (db : Db) (step : Nat),
    saveGo none t db step jobs = some (execUpserts t db jobs) := by
  induction jobs with
  | nil => intro db step; rfl
  | cons j js ih =>
    intro db step
    by_cases hv : validJob j <;> simp [saveGo, execUpserts, hv, ih]

theorem save_jobs_to_db_none (t : Nat) (db : Db) (jobs : List JobRec) :
    save_jobs_to_db none t db jobs = execUpserts t db jobs := by
  simp [save_jobs_to_db, saveGo_none]

theorem save_jobs_to_db_fail (k t : Nat) (db : Db) (jobs : List JobRec) :
    save_jobs_to_db (some k) t db jobs = db := rfl

theorem scrape_company_fst (A : Adapters) (o o' : Option Nat) (t t' : Nat)
    (db db' : Db) (c role location : String) :
    (scrape_company A o t db c role location).1
      = (scrape_company A o' t' db' c role location).1 := by
  unfold scrape_company
  split_ifs
  · cases A.zoho role location <;> rfl
  · cases A.google role location <;> rfl
  · cases A.microsoft role location <;> rfl
  · cases A.amazon role location <;> rfl
  · rfl

theorem heavy_fold_fst (A : Adapters) (role location : String) (t t' : Nat)
    (o o' : Nat → Option Nat) (cs : List String) :
    ∀ (acc : List (List JobRec)) (d d' : Db) (k k' : Nat),
    (cs.foldl (heavyStep A t role location o) (acc, d, k)).1
      = (cs.foldl (heavyStep A t' role location o') (acc, d', k')).1 := by
  induction cs with
  | nil => intro acc d d' k k'; rfl
  | cons c cs ih =>
    intro acc d d' k k'
    simp only [List.foldl_cons]
    have hf := scrape_company_fst A (o k) (o' k') t t' d d' c role location
    rcases h1 : scrape_company A (o k) t d c role location with ⟨r1, e1⟩
    rcases h2 : scrape_company A (o' k') t' d' c role location with ⟨r2, e2⟩
    rw [h1, h2] at hf
    simp only at hf
    subst hf
    cases r1 with
    | ok js => simp only [heavyStep, h1, h2]; exact ih _ _ _ _ _
    | error e => simp only [heavyStep, h1, h2]; exact ih _ _ _ _ _

theorem scrape_jobs_multi_fst (A : Adapters) (o o' : Nat → Option Nat)
    (t t' : Nat) (db : Db) (cs : List String) (role location : String) :
    (scrape_jobs_multi A o t db cs role location).1
      = (scrape_jobs_multi A o' t' db cs role location).1 := by
  have hl : (fun c => (scrape_company A none t db c role location).1)
      = (fun c => (scrape_company A none t' db c role location).1) := by
    funext c
    exact scrape_company_fst A none none t t' db db c role location
  have hh := heavy_fold_fst A role location t t' o o' (cs.filter isSelenium)
    [] db db 0 0
  simp only [scrape_jobs_multi, hl]
  rcases hres : (cs.filter (fun c => !isSelenium c)).mapM
      (fun c => (scrape_company A none t' db c role location).1) with _ | lists
  · rfl
  · simp only [hh]

/-- C6: persistence is one transaction — a failure at any statement (or
at commit) leaves the durable state exactly as before, while a clean run
commits the whole batch of upserts; and the batch returned by
`scrape_jobs_multi` is the same in-memory enriched batch regardless of
any persistence outcome (oracle) or insert timestamp. -/
theorem persistence_atomic_and_isolated :
    (∀ (k t : Nat) (db : Db) (jobs : List JobRec),
        save_jobs_to_db (some k) t db jobs = db) ∧
    (∀ (t : Nat) (db : Db) (jobs : List JobRec),
        save_jobs_to_db none t db jobs = execUpserts t db jobs) ∧
    (∀ (A : Adapters) (o o' : Nat → Option Nat) (t t' : Nat) (db : Db)
        (cs : List String) (role location : String),
        (scrape_jobs_multi A o t db cs role location).1
          = (scrape_jobs_multi A o' t' db cs role location).1) :=
  ⟨save_jobs_to_db_fail, save_jobs_to_db_none, scrape_jobs_multi_fst⟩

/-! ## C9 — enrichment invariants -/

theorem searchFrom_some {α} (m : List Char → Option α) (t : List Char) (v : α)
    (h : searchFrom m t = some v) : ∃ s, m s = some v := by
  induction t with
  | nil => exact ⟨[], h⟩
  | cons c cs ih =>
    rw [searchFrom] at h
    rcases hm : m (c :: cs) with _ | w
    · rw [hm] at h
      exact ih h
    · rw [hm] at h
      exact ⟨c :: cs, hm.trans h⟩

theorem searchFromB_some {α} (m : Option Char → List Char → Option α)
    (p : Option Char) (t : List Char) (v : α)
    (h : searchFromB m p t = some v) : ∃ q s, m q s = some v := by
  induction t generalizing p with
  | nil => exact ⟨p, [], h⟩
  | cons c cs ih =>
    rw [searchFromB] at h
    rcases hm : m p (c :: cs) with _ | w
    · rw [hm] at h
      exact ih _ h
    · rw [hm] at h
      exact ⟨p, c :: cs, hm.trans h⟩

theorem firstSome_some {α} (l : List (Option α)) (v : α)
    (h : firstSome l = some v) : some v ∈ l := by
  induction l with
  | nil => exact Option.noConfusion h
  | cons o rest ih =>
    cases o with
    | some w =>
      rw [firstSome] at h
      exact h ▸ List.mem_cons_self _ _
    | none => exact List.mem_cons_of_mem _ (ih h)

theorem rangeMatchAt_nonneg {s : List Char} {v : Int × Int × List Char}
    (h : rangeMatchAt s = some v) : 0 ≤ v.1 ∧ 0 ≤ v.2.1 := by
  simp only [rangeMatchAt] at h
  repeat' split at h
  any_goals exact Option.noConfusion h
  all_goals
    injection h with h'
    subst h'
    exact ⟨intOfDigits_nonneg _, intOfDigits_nonneg _⟩

theorem orMoreMatchAt_nonneg {p : Option Char} {s : List Char} {v : Int × List Char}
    (h : orMoreMatchAt p s = some v) : 0 ≤ v.1 := by
  simp only [orMoreMatchAt] at h
  repeat' split at h
  any_goals exact Option.noConfusion h
  all_goals
    injection h with h'
    subst h'
    exact intOfDigits_nonneg _

theorem singleMatchTail_nonneg {r : List Char} {v : Int × List Char}
    (h : singleMatchTail r = some v) : 0 ≤ v.1 := by
  simp only [singleMatchTail] at h
  repeat' split at h
  any_goals exact Option.noConfusion h
  all_goals
    injection h with h'
    subst h'
    exact intOfDigits_nonneg _

theorem singleMatchAt_nonneg {s : List Char} {v : Int × List Char}
    (h : singleMatchAt s = some v) : 0 ≤ v.1 := by
  unfold singleMatchAt at h
  have hm := firstSome_some _ _ h
  rcases List.mem_map.mp hm with ⟨r, _, hr⟩
  exact singleMatchTail_nonneg hr

theorem upToTail_nonneg {r0 : List Char} {v : Int × List Char}
    (h : upToTail r0 = some v) : 0 ≤ v.1 := by
  simp only [upToTail] at h
  repeat' split at h
  any_goals exact Option.noConfusion h
  all_goals
    injection h with h'
    subst h'
    exact intOfDigits_nonneg _

theorem upToMatchAt_nonneg {s : List Char} {v : Int × List Char}
    (h : upToMatchAt s = some v) : 0 ≤ v.1 := by
  simp only [upToMatchAt] at h
  repeat' split at h
  any_goals exact Option.noConfusion h
  all_goals exact upToTail_nonneg h

theorem rangeSearch_nonneg {t : List Char} {n m : Int}
    (h : rangeSearch t = some (n, m)) : 0 ≤ n ∧ 0 ≤ m := by
  unfold rangeSearch at h
  rcases hs : searchFrom rangeMatchAt t with _ | v
  · rw [hs] at h
    exact Option.noConfusion h
  · rw [hs] at h
    obtain ⟨s, hv⟩ := searchFrom_some _ _ _ hs
    have hnn := rangeMatchAt_nonneg hv
    injection h with h'
    simp only [Prod.mk.injEq] at h'
    exact ⟨h'.1 ▸ hnn.1, h'.2 ▸ hnn.2⟩

theorem orMoreSearch_nonneg {t : List Char} {n : Int}
    (h : orMoreSearch t = some n) : 0 ≤ n := by
  unfold orMoreSearch at h
  rcases hs : searchFromB orMoreMatchAt none t with _ | v
  · rw [hs] at h
    exact Option.noConfusion h
  · rw [hs] at h
    obtain ⟨q, s, hv⟩ := searchFromB_some _ _ _ _ hs
    injection h with h'
    exact h' ▸ orMoreMatchAt_nonneg hv

theorem singleSearch_nonneg {t : List Char} {n : Int}
    (h : singleSearch t = some n) : 0 ≤ n := by
  unfold singleSearch at h
  rcases hs : searchFrom singleMatchAt t with _ | v
  · rw [hs] at h
    exact Option.noConfusion h
  · rw [hs] at h
    obtain ⟨s, hv⟩ := searchFrom_some _ _ _ hs
    injection h with h'
    exact h' ▸ singleMatchAt_nonneg hv

theorem upToSearch_nonneg {t : List Char} {n : Int}
    (h : upToSearch t = some n) : 0 ≤ n := by
  unfold upToSearch at h
  rcases hs : searchFrom upToMatchAt t with _ | v
  · rw [hs] at h
    exact Option.noConfusion h
  · rw [hs] at h
    obtain ⟨s, hv⟩ := searchFrom_some _ _ _ hs
    injection h with h'
    exact h' ▸ upToMatchAt_nonneg hv

/-- Every numeric minimum produced by the inferencer is non-negative
(the regex captures are decimal digit strings). -/
theorem extract_experience_min_nonneg (t : List Char) (v : Int)
    (h : (extract_experience t).1 = some v) : 0 ≤ v := by
  unfold extract_experience at h
  by_cases he : t.isEmpty
  · rw [if_pos he] at h
    exact Option.noConfusion h
  · rw [if_neg he] at h
    rcases hr : rangeSearch t with _ | p
    · rw [hr] at h
      rcases ho : orMoreSearch t with _ | n
      · rw [ho] at h
        rcases hs : singleSearch t with _ | n
        · rw [hs] at h
          rcases hu : upToSearch t with _ | n
          · rw [hu] at h
            exact Option.noConfusion h
          · rw [hu] at h
            simp only [Option.some.injEq] at h
            omega
        · rw [hs] at h
          simp only [Option.some.injEq] at h
          exact h ▸ singleSearch_nonneg hs
      · rw [ho] at h
        simp only [Option.some.injEq] at h
        exact h ▸ orMoreSearch_nonneg ho
    · rcases p with ⟨mn, mx⟩
      rw [hr] at h
      simp only [Option.some.injEq] at h
      exact h ▸ (rangeSearch_nonneg hr).1

/-- The scorer never returns an empty reason. -/
theorem scoreMatch_reason_ne (a b : Option Int) (f : Flags) (y : Int) :
    (scoreMatch a b f y).2 ≠ "" := by
  have h9 : ("Requires " : String).length = 9 := by decide
  have h8 : ("Minimum " : String).length = 8 := by decide
  have h14 : ("Matches range " : String).length = 14 := by decide
  by_cases hf : f.entry_level
  · simp only [scoreMatch, hf, if_true]
    decide
  · cases a with
    | some mn =>
      by_cases hlt : y < mn
      · simp only [scoreMatch, hf, if_false, Bool.false_eq_true, hlt, if_true]
        apply append_ne_empty_of_left
        rw [String.length_append, String.length_append]
        omega
      · cases b with
        | none =>
          simp only [scoreMatch, hf, if_false, Bool.false_eq_true, hlt]
          apply append_ne_empty_of_left
          rw [String.length_append]
          omega
        | some mx =>
          by_cases hz : mx = 0 <;>
            simp only [scoreMatch, hf, if_false, Bool.false_eq_true, hlt, hz,
              if_true] <;>
            apply append_ne_empty_of_left
          · rw [String.length_append]
            omega
          · rw [String.length_append, String.length_append, String.length_append]
            omega
    | none =>
      by_cases hs : f.senior = true ∧ y ≤ 2 <;>
        simp only [scoreMatch, hf, Bool.false_eq_true, if_false, hs, if_true] <;>
        decide

/-- C9 (amended): after enrichment every record has a non-negative
numeric minimum when one is set and a non-empty match reason; the
`experience_max ≥ experience_min` part of the claim is dropped (see the
counterexample). -/
theorem enrich_invariants (jobs : List JobRec) (y : Int) (j : JobRec)
    (hj : j ∈ enrich_jobs_with_match jobs y) :
    (∀ v, j.experience_min = some v → 0 ≤ v) ∧ j.match_reason ≠ "" := by
  rcases List.mem_map.mp hj with ⟨j0, _, rfl⟩
  constructor
  · intro v hv
    simp only [enrichJob] at hv
    exact extract_experience_min_nonneg _ v hv
  · simp only [enrichJob]
    exact scoreMatch_reason_ne _ _ _ _

/-- C9 witness. -/
theorem enrich_invariants_witness :
    (enrichJob 2 { title := some "5 years" }).experience_min = some 5 ∧
    (0 : Int) ≤ 5 ∧
    (enrichJob 2 { title := some "5 years" }).match_reason ≠ "" :=
  ⟨by decide,
   (enrich_invariants [{ title := some "5 years" }] 2
      (enrichJob 2 { title := some "5 years" })
      (by simp [enrich_jobs_with_match])).1 5 (by decide),
   (enrich_invariants [{ title := some "5 years" }] 2
      (enrichJob 2 { title := some "5 years" })
      (by simp [enrich_jobs_with_match])).2⟩

/-! ## C4 — a failing Selenium adapter is isolated, for every query -/

/-- The sequential Selenium loop computes, in its list component, the
per-company conversion of each fetch outcome — independent of the
accumulator, the threaded database state and the oracle counter. -/
theorem heavy_fold_map (A : Adapters) (role location : String) (t : Nat)
    (os : Nat → Option Nat) (db : Db) (cs : List String) :
    ∀ (acc : List (List JobRec)) (d : Db) (k : Nat),
    (cs.foldl (heavyStep A t role location os) (acc, d, k)).1
      = acc ++ cs.map
          (fun c => heavyConvert (scrape_company A none t db c role location).1 c) := by
  induction cs with
  | nil =>
    intro acc d k
    simp
  | cons c cs ih =>
    intro acc d k
    simp only [List.foldl_cons, List.map_cons]
    have hf := scrape_company_fst A (os k) none t t d db c role location
    rcases h1 : scrape_company A (os k) t d c role location with ⟨r1, d1⟩
    rw [h1] at hf
    simp only at hf
    cases r1 with
    | ok js =>
      simp only [heavyStep, h1]
      rw [ih (acc ++ [js]) d1 (k + 1), ← hf]
      simp [heavyConvert, List.append_assoc]
    | error e =>
      simp only [heavyStep, h1]
      rw [ih, ← hf]
      simp [heavyConvert, List.append_assoc]

/-- C4: for every query (any company list, role, location), adapter
family, oracle and database, as long as the non-Selenium fetches return
normally (a raising light adapter aborts the whole gather), the
returned batch is the light results followed by, for each requested
Selenium-class company in order, the conversion of that company's own
fetch outcome.  So when one heavy adapter raises, the exception is
caught and becomes the single `{company, error}` record named after
that company (second conjunct), every subsequent heavy adapter still
runs and contributes its entry, and every other company's results
appear unaffected — each contribution depends only on that company's
own fetch. -/
theorem heavy_failure_isolated (A : Adapters) (os : Nat → Option Nat) (t : Nat)
    (db : Db) (companies : List String) (role location : String)
    (L : List (List JobRec))
    (hl : (companies.filter (fun c => !isSelenium c)).mapM
        (fun c => (scrape_company A none t db c role location).1) = .ok L) :
    (scrape_jobs_multi A os t db companies role location).1
      = .ok (((L ++ (companies.filter isSelenium).map
            (fun c => heavyConvert (scrape_company A none t db c role location).1 c)).flatten).map
           (fun j => if j.title.isSome then enrichJob USER_YEARS j else j)) ∧
    (∀ c e, (scrape_company A none t db c role location).1 = .error e →
      heavyConvert (scrape_company A none t db c role location).1 c
        = [{ company := c, error := some e }]) := by
  constructor
  · simp only [scrape_jobs_multi, hl]
    rw [heavy_fold_map A role location t os db (companies.filter isSelenium) [] db 0]
    simp
  · intro c e h
    rw [h]
    rfl

/-- C4 witness: the four canonical companies with the Microsoft adapter
raising; the theorem is applied with the light results discharged by
evaluation, then instantiated at the failing company. -/
theorem heavy_failure_isolated_witness :
    (scrape_jobs_multi crashingAdapters (fun _ => none) 0 ⟨[], 0⟩
        ["zoho", "google", "microsoft", "amazon"] "dev" "blr").1
      = .ok (((([[{ title := some "Z", apply_url := some "z1", company := "Zoho" }],
              [{ title := some "G", apply_url := some "g1", company := "Google" }]]
              : List (List JobRec))
            ++ (["zoho", "google", "microsoft", "amazon"].filter isSelenium).map
              (fun c => heavyConvert
                (scrape_company crashingAdapters none 0 ⟨[], 0⟩ c "dev" "blr").1
                c)).flatten).map
           (fun j => if j.title.isSome then enrichJob USER_YEARS j else j)) ∧
    heavyConvert
        (scrape_company crashingAdapters none 0 ⟨[], 0⟩ "microsoft" "dev" "blr").1
        "microsoft"
      = [{ company := "microsoft", error := some "selenium crashed" }] :=
  ⟨(heavy_failure_isolated crashingAdapters (fun _ => none) 0 ⟨[], 0⟩
      ["zoho", "google", "microsoft", "amazon"] "dev" "blr"
      [[{ title := some "Z", apply_url := some "z1", company := "Zoho" }],
       [{ title := some "G", apply_url := some "g1", company := "Google" }]]
      (by rfl)).1,
   (heavy_failure_isolated crashingAdapters (fun _ => none) 0 ⟨[], 0⟩
      ["zoho", "google", "microsoft", "amazon"] "dev" "blr"
      [[{ title := some "Z", apply_url := some "z1", company := "Zoho" }],
       [{ title := some "G", apply_url := some "g1", company := "Google" }]]
      (by rfl)).2 "microsoft" "selenium crashed" (by rfl)⟩

/-! ## C7 — the plausibility bound lives only in the Microsoft extractor -/

theorem insertSortedUnique_mem {x n : Int} {l : List Int}
    (hx : x ∈ insertSortedUnique n l) : x = n ∨ x ∈ l := by
  induction l with
  | nil =>
    simp [insertSortedUnique] at hx
    exact Or.inl hx
  | cons m ms ih =>
    unfold insertSortedUnique at hx
    split_ifs at hx
    · rw [List.mem_cons] at hx
      rcases hx with rfl | hx
      · exact Or.inl rfl
      · exact Or.inr hx
    · exact Or.inr hx
    · rw [List.mem_cons] at hx
      rcases hx with rfl | hx
      · exact Or.inr (List.mem_cons_self _ _)
      · rcases ih hx with h | h
        · exact Or.inl h
        · exact Or.inr (List.mem_cons_of_mem _ h)

theorem msNums_range_fold_bounded (ps : List (Int × Int)) :
    ∀ (acc : List Int), (∀ x ∈ acc, 0 < x ∧ x ≤ 60) →
    ∀ x ∈ ps.foldl (fun acc p =>
        let acc' := if 0 < p.1 ∧ p.1 ≤ 60 then insertSortedUnique p.1 acc else acc
        if 0 < p.2 ∧ p.2 ≤ 60 then insertSortedUnique p.2 acc' else acc') acc,
      0 < x ∧ x ≤ 60 := by
  induction ps with
  | nil => intro acc hacc x hx; exact hacc x hx
  | cons p ps ih =>
    intro acc hacc x hx
    refine ih _ ?_ x hx
    intro y hy
    simp only at hy
    split_ifs at hy with h2 h1 h1
    · rcases insertSortedUnique_mem hy with rfl | hy'
      · exact h2
      · rcases insertSortedUnique_mem hy' with rfl | hy''
        · exact h1
        · exact hacc y hy''
    · rcases insertSortedUnique_mem hy with rfl | hy'
      · exact h2
      · exact hacc y hy'
    · rcases insertSortedUnique_mem hy with rfl | hy'
      · exact h1
      · exact hacc y hy'
    · exact hacc y hy

theorem msNums_single_fold_bounded (ns : List Int) :
    ∀ (acc : List Int), (∀ x ∈ acc, 0 < x ∧ x ≤ 60) →
    ∀ x ∈ ns.foldl (fun acc n =>
        if 0 < n ∧ n ≤ 60 then insertSortedUnique n acc else acc) acc,
      0 < x ∧ x ≤ 60 := by
  induction ns with
  | nil => intro acc hacc x hx; exact hacc x hx
  | cons n ns ih =>
    intro acc hacc x hx
    refine ih _ ?_ x hx
    intro y hy
    simp only at hy
    split_ifs at hy with h1
    · rcases insertSortedUnique_mem hy with rfl | hy'
      · exact h1
      · exact hacc y hy'
    · exact hacc y hy

theorem msNums_bounded (t : List Char) : ∀ x ∈ msNums t, 0 < x ∧ x ≤ 60 := by
  unfold msNums
  refine msNums_single_fold_bounded _ _ ?_
  exact msNums_range_fold_bounded _ _ (by intro x hx; simp at hx)

/-- C7 (amended): the shared inferencer applies no plausibility bound —
`"100 years"` yields `min = 100` (see the counterexample) — while the
Microsoft scraper's own extractor keeps only candidates `n` with
`0 < n ≤ 60`, so every minimum, maximum and candidate it reports lies in
that range. -/
theorem ms_extract_bounded (t : List Char) :
    (∀ v, (extract_experience_numbers t).1 = some v → 0 < v ∧ v ≤ 60) ∧
    (∀ v, (extract_experience_numbers t).2.1 = some v → 0 < v ∧ v ≤ 60) ∧
    (∀ v ∈ (extract_experience_numbers t).2.2, 0 < v ∧ v ≤ 60) := by
  unfold extract_experience_numbers
  by_cases he : t.isEmpty
  · rw [if_pos he]
    refine ⟨?_, ?_, ?_⟩ <;> simp
  · rw [if_neg he]
    have hall := msNums_bounded (msNormalize t)
    rcases hn : msNums (msNormalize t) with _ | ⟨m, rest⟩
    · refine ⟨?_, ?_, ?_⟩ <;> simp [msResult]
    · rw [hn] at hall
      simp only [msResult]
      refine ⟨?_, ?_, ?_⟩
      · intro v hv
        simp only [Option.some.injEq] at hv
        exact hv ▸ hall m (List.mem_cons_self _ _)
      · intro v hv
        by_cases hc : ((m :: rest).length > 1 ∧ rest.getLastD m ≠ m)
        · rw [if_pos hc] at hv
          simp only [Option.some.injEq] at hv
          exact hv ▸ hall _ (List.getLastD_mem_cons _ _)
        · rw [if_neg hc] at hv
          exact Option.noConfusion hv
      · exact hall

set_option maxHeartbeats 1600000 in
/-- C7 witness for the Microsoft-extractor bound. -/
theorem ms_extract_bounded_witness :
    (extract_experience_numbers "5 years".toList).1 = some 5 ∧
    (0 : Int) < 5 ∧ (5 : Int) ≤ 60 :=
  ⟨by decide, (ms_extract_bounded "5 years".toList).1 5 (by decide)⟩

/-! ## C8 — the "up to N years" branch is dead code -/

theorem firstSome_singleton {α} (o : Option α) : firstSome [o] = o := by
  cases o <;> rfl

theorem stripCI_suffix (pat : List Char) : ∀ (s r : List Char),
    stripCI pat s = some r → ∃ pre, s = pre ++ r := by
  induction pat with
  | nil =>
    intro s r h
    injection h with h'
    exact ⟨[], h' ▸ rfl⟩
  | cons p ps ih =>
    intro s r h
    cases s with
    | nil => exact Option.noConfusion h
    | cons c cs =>
      unfold stripCI at h
      split_ifs at h
      · obtain ⟨pre, hpre⟩ := ih cs r h
        exact ⟨c :: pre, by rw [hpre, List.cons_append]⟩

theorem skipSpaces_suffix (s : List Char) : ∃ pre, s = pre ++ skipSpaces s := by
  induction s with
  | nil => exact ⟨[], rfl⟩
  | cons c cs ih =>
    unfold skipSpaces
    split_ifs
    · obtain ⟨pre, hpre⟩ := ih
      exact ⟨c :: pre, by rw [List.cons_append, ← hpre]⟩
    · exact ⟨[], rfl⟩

theorem takeDigits_ne_nil {s : List Char} (h : ¬ (takeDigits s).1.isEmpty = true) :
    ∃ c cs, s = c :: cs ∧ isDigitChar c = true := by
  cases s with
  | nil => simp [takeDigits] at h
  | cons c cs =>
    by_cases hc : isDigitChar c = true
    · exact ⟨c, cs, rfl, hc⟩
    · exfalso
      apply h
      simp [takeDigits, hc]

theorem digit_not_space {c : Char} (hc : isDigitChar c = true) :
    isSpaceChar c = false := by
  rcases digit_char_cases hc with rfl|rfl|rfl|rfl|rfl|rfl|rfl|rfl|rfl|rfl <;> rfl

theorem skipSpaces_cons_digit {c : Char} (cs : List Char)
    (hc : isDigitChar c = true) : skipSpaces (c :: cs) = c :: cs := by
  simp [skipSpaces, digit_not_space hc]

/-- At a digit-headed position every non-empty prefix alternative of
`SINGLE_RE` fails, leaving only the empty prefix. -/
theorem singlePrefixCands_digit {c : Char} (s : List Char)
    (hc : isDigitChar c = true) : singlePrefixCands (c :: s) = [c :: s] := by
  rcases digit_char_cases hc with rfl|rfl|rfl|rfl|rfl|rfl|rfl|rfl|rfl|rfl <;> rfl

theorem matchYears_plus (u : List Char) : matchYears ('+' :: u) = none := rfl

theorem skipSpaces_plus (u : List Char) : skipSpaces ('+' :: u) = '+' :: u := rfl

/-- Wherever the `UP_TO_RE` tail matches, `SINGLE_RE` (with its empty
prefix) matches at the digit position with the very same payload. -/
theorem upToTail_single {r0 : List Char} {v : Int × List Char}
    (h : upToTail r0 = some v) :
    singleMatchAt (skipSpaces r0) = some v := by
  simp only [upToTail] at h
  by_cases hne : (takeDigits (skipSpaces r0)).1.isEmpty = true
  · rw [if_pos hne] at h
    exact Option.noConfusion h
  · rw [if_neg hne] at h
    rcases hy : matchYears (skipSpaces (takeDigits (skipSpaces r0)).2) with _ | rest
    · rw [hy] at h
      exact Option.noConfusion h
    · rw [hy] at h
      obtain ⟨c, cs, hr1, hc⟩ := takeDigits_ne_nil hne
      rw [hr1] at h hy hne ⊢
      unfold singleMatchAt
      rw [singlePrefixCands_digit cs hc]
      simp only [List.map_cons, List.map_nil, firstSome_singleton]
      simp only [singleMatchTail]
      rw [skipSpaces_cons_digit cs hc]
      rw [if_neg hne]
      have hplus : ∀ u, (takeDigits (c :: cs)).2 ≠ '+' :: u := by
        intro u hu
        rw [hu, skipSpaces_plus, matchYears_plus] at hy
        exact Option.noConfusion hy
      have hm : (match (takeDigits (c :: cs)).2 with
          | '+' :: t => t
          | x => (takeDigits (c :: cs)).2) = (takeDigits (c :: cs)).2 := by
        split
        · rename_i t heq
          exact absurd heq (hplus t)
        · rfl
      rw [hm, hy]
      exact h

theorem searchFrom_some_suffix {α} (m : List Char → Option α) (t : List Char)
    (v : α) (h : searchFrom m t = some v) :
    ∃ pre s, t = pre ++ s ∧ m s = some v := by
  induction t with
  | nil => exact ⟨[], [], rfl, h⟩
  | cons c cs ih =>
    rw [searchFrom] at h
    rcases hm : m (c :: cs) with _ | w
    · rw [hm] at h
      obtain ⟨pre, s, hts, hms⟩ := ih h
      exact ⟨c :: pre, s, by rw [hts, List.cons_append], hms⟩
    · rw [hm] at h
      exact ⟨[], c :: cs, rfl, hm.trans h⟩

theorem searchFrom_suffix_some {α} (m : List Char → Option α) (pre s : List Char)
    (v : α) (h : m s = some v) : ∃ w, searchFrom m (pre ++ s) = some w := by
  induction pre with
  | nil =>
    cases s with
    | nil => exact ⟨v, h⟩
    | cons c cs =>
      refine ⟨v, ?_⟩
      rw [List.nil_append]
      unfold searchFrom
      rw [h]
  | cons p ps ih =>
    obtain ⟨w, hw⟩ := ih
    rcases hm : m (p :: (ps ++ s)) with _ | w2
    · refine ⟨w, ?_⟩
      rw [List.cons_append]
      unfold searchFrom
      rw [hm]
      exact hw
    · refine ⟨w2, ?_⟩
      rw [List.cons_append]
      unfold searchFrom
      rw [hm]

/-- Dead branch: whenever `UP_TO_RE` would match somewhere in the text,
`SINGLE_RE` matches too, so `_extract_experience` never reaches the
up-to rule. -/
theorem singleSearch_of_upTo {t : List Char} {n : Int}
    (hu : upToSearch t = some n) : ∃ k, singleSearch t = some k := by
  unfold upToSearch at hu
  rcases hs : searchFrom upToMatchAt t with _ | v
  · rw [hs] at hu
    exact Option.noConfusion hu
  · obtain ⟨pre, s, hts, hv⟩ := searchFrom_some_suffix _ _ _ hs
    have hbranch : ∃ r0 pre2, s = pre2 ++ r0 ∧ upToTail r0 = some v := by
      unfold upToMatchAt at hv
      rcases h1 : stripCI ['u', 'p', ' ', 't', 'o'] s with _ | r0
      · rw [h1] at hv
        rcases h2 : stripCI ['u', 'p', 't', 'o'] s with _ | r0
        · rw [h2] at hv
          exact Option.noConfusion hv
        · rw [h2] at hv
          obtain ⟨pre2, hpre2⟩ := stripCI_suffix _ _ _ h2
          exact ⟨r0, pre2, hpre2, hv⟩
      · rw [h1] at hv
        obtain ⟨pre2, hpre2⟩ := stripCI_suffix _ _ _ h1
        exact ⟨r0, pre2, hpre2, hv⟩
    obtain ⟨r0, pre2, hpre2, htail⟩ := hbranch
    have hone := upToTail_single htail
    obtain ⟨pre3, hpre3⟩ := skipSpaces_suffix r0
    set w := skipSpaces r0 with hw
    have ht' : t = (pre ++ (pre2 ++ pre3)) ++ w := by
      rw [hts, hpre2, hpre3]
      simp [List.append_assoc]
    rw [ht']
    obtain ⟨k2, hk2⟩ := searchFrom_suffix_some singleMatchAt (pre ++ (pre2 ++ pre3)) w _ hone
    refine ⟨k2.1, ?_⟩
    unfold singleSearch
    rw [hk2]
    rfl

/-- C8 (amended): for a text where "up to N years" matches but no range
and no "N+ / or more" pattern does, the inferencer returns
`(min = K, max = None)` where `K` is the first bare single-bound match
in the text (`K = N` when the up-to phrase is the only experience
mention) — never `(min = 0, max = N)`: the bare `SINGLE_RE` always
matches inside "up to N years" first. -/
theorem extract_up_to_single (t : List Char) (n : Int)
    (hu : upToSearch t = some n) (hr : rangeSearch t = none)
    (ho : orMoreSearch t = none) :
    (∃ k, singleSearch t = some k) ∧
    (∀ k, singleSearch t = some k →
      extract_experience t = (some k, none, ⟨entrySearch t, false⟩)) := by
  refine ⟨singleSearch_of_upTo hu, ?_⟩
  intro k hk
  have ht : ¬ t.isEmpty = true := by
    intro he
    rw [List.isEmpty_iff.mp he] at hu
    exact Option.noConfusion hu
  unfold extract_experience
  rw [if_neg ht, hr, ho, hk]

/-- C8 witness: the counterexample text itself, where the first single
match is the embedded `N`. -/
theorem extract_up_to_single_witness :
    upToSearch "up to 3 years".toList = some 3 ∧
    rangeSearch "up to 3 years".toList = none ∧
    orMoreSearch "up to 3 years".toList = none ∧
    singleSearch "up to 3 years".toList = some 3 ∧
    extract_experience "up to 3 years".toList
      = (some 3, none, ⟨entrySearch "up to 3 years".toList, false⟩) :=
  ⟨by decide, by decide, by decide, by decide,
   (extract_up_to_single "up to 3 years".toList 3 (by decide) (by decide)
      (by decide)).2 3 (by decide)⟩

/-! ## C3 — idempotent upsert keyed on `apply_url` -/

theorem upsertOne_keys (t : Nat) (db : Db) (j : JobRec) :
    (upsertOne t db j).rows.map (fun r => r.apply_url)
      = if db.rows.any (fun r => r.apply_url == keyOf j)
        then db.rows.map (fun r => r.apply_url)
        else db.rows.map (fun r => r.apply_url) ++ [keyOf j] := by
  unfold upsertOne
  split_ifs with hany
  · simp only [List.map_map]
    apply List.map_congr_left
    intro r _
    by_cases hr : (r.apply_url == keyOf j) = true
    · show (if (r.apply_url == keyOf j) = true then mutUpdate j r else r).apply_url
        = r.apply_url
      rw [if_pos hr]
      rfl
    · show (if (r.apply_url == keyOf j) = true then mutUpdate j r else r).apply_url
        = r.apply_url
      rw [if_neg hr]
  · simp [newRow, keyOf]

theorem uniqueKeys_upsertOne (t : Nat) (db : Db) (j : JobRec)
    (h : uniqueKeys db) : uniqueKeys (upsertOne t db j) := by
  unfold uniqueKeys
  rw [upsertOne_keys]
  split_ifs with hany
  · exact h
  · rw [List.nodup_append]
    refine ⟨h, List.nodup_singleton _, ?_⟩
    intro a ha hamem
    rw [List.mem_singleton] at hamem
    subst hamem
    rcases List.mem_map.mp ha with ⟨r, hrmem, hru⟩
    exact hany (List.any_eq_true.mpr ⟨r, hrmem, by rw [hru]; exact beq_self_eq_true _⟩)

theorem uniqueKeys_exec (t : Nat) : ∀ (b : List JobRec) (db : Db),
    uniqueKeys db → uniqueKeys (execUpserts t db b) := by
  intro b
  induction b with
  | nil => intro db h; exact h
  | cons j js ih =>
    intro db h
    unfold execUpserts
    by_cases hv : validJob j = true
    · rw [if_pos hv]
      exact ih _ (uniqueKeys_upsertOne t db j h)
    · rw [if_neg hv]
      exact ih _ h

theorem find?_map_pres (g : Row → Row) (p : Row → Bool)
    (hp : ∀ r, p (g r) = p r) (rows : List Row) :
    List.find? p (rows.map g) = (List.find? p rows).map g := by
  induction rows with
  | nil => rfl
  | cons r rs ih =>
    by_cases hr : p r = true
    · rw [List.map_cons, List.find?_cons_of_pos _ (by rw [hp]; exact hr),
        List.find?_cons_of_pos _ hr]
      rfl
    · rw [List.map_cons, List.find?_cons_of_neg _ (by rw [hp]; exact hr),
        List.find?_cons_of_neg _ hr, ih]

theorem lookupRow_upsertOne_ne (t : Nat) (db : Db) (j : JobRec) (u : String)
    (hne : keyOf j ≠ u) :
    lookupRow (upsertOne t db j) u = lookupRow db u := by
  unfold upsertOne lookupRow
  split_ifs with hany
  · rw [find?_map_pres _ _ (by
      intro r
      by_cases hr : (r.apply_url == keyOf j) = true <;> simp [hr, mutUpdate])]
    rcases hf : List.find? (fun r => r.apply_url == u) db.rows with _ | r
    · rw [hf]
      rfl
    · rw [hf]
      have hru := List.find?_some hf
      rw [beq_iff_eq] at hru
      have hgr : (if (r.apply_url == keyOf j) = true then mutUpdate j r else r) = r := by
        rw [if_neg]
        intro hk
        rw [beq_iff_eq] at hk
        exact hne (hk ▸ hru)
      rw [Option.map_some', hgr]
  · rw [List.find?_append]
    have hx : List.find? (fun r => r.apply_url == u) [newRow t db.nextId j] = none := by
      rw [List.find?_eq_none]
      intro x hx
      rw [List.mem_singleton] at hx
      subst hx
      simp only [newRow, beq_iff_eq]
      exact fun hk => hne hk
    rw [hx]
    cases List.find? (fun r => r.apply_url == u) db.rows <;> rfl

theorem validKeys_cons (j : JobRec) (b : List JobRec) :
    validKeys (j :: b)
      = if validJob j then keyOf j :: validKeys b else validKeys b := by
  unfold validKeys
  by_cases h : validJob j = true <;> simp [List.filter_cons, h]

theorem lookupRow_exec_not_mem (t : Nat) : ∀ (b : List JobRec) (db : Db)
    (u : String), u ∉ validKeys b →
    lookupRow (execUpserts t db b) u = lookupRow db u := by
  intro b
  induction b with
  | nil => intro db u _; rfl
  | cons j js ih =>
    intro db u hu
    rw [validKeys_cons] at hu
    unfold execUpserts
    by_cases hv : validJob j = true
    · rw [if_pos hv]
      rw [if_pos hv] at hu
      rw [List.mem_cons] at hu
      push_neg at hu
      rw [ih _ _ hu.2]
      exact lookupRow_upsertOne_ne t db j u (Ne.symm hu.1)
    · rw [if_neg hv]
      rw [if_neg hv] at hu
      exact ih _ _ hu

theorem mutEq_mutUpdate (j : JobRec) (r : Row) : mutEq (mutUpdate j r) j := by
  simp [mutEq, mutUpdate]

theorem lookupRow_upsertOne_self (t : Nat) (db : Db) (j : JobRec) :
    ∃ r, lookupRow (upsertOne t db j) (keyOf j) = some r ∧ mutEq r j := by
  unfold upsertOne lookupRow
  split_ifs with hany
  · rcases List.any_eq_true.mp hany with ⟨r₀, hmem, hr₀⟩
    rcases hf : List.find? (fun r => r.apply_url == keyOf j) db.rows with _ | r₁
    · exfalso
      rw [List.find?_eq_none] at hf
      exact hf r₀ hmem hr₀
    · rw [find?_map_pres _ _ (by
        intro r
        by_cases hr : (r.apply_url == keyOf j) = true
        · show ((if (r.apply_url == keyOf j) = true then mutUpdate j r else r).apply_url
              == keyOf j)
            = (r.apply_url == keyOf j)
          rw [if_pos hr]
          rfl
        · show ((if (r.apply_url == keyOf j) = true then mutUpdate j r else r).apply_url
              == keyOf j)
            = (r.apply_url == keyOf j)
          rw [if_neg hr]), hf]
      refine ⟨mutUpdate j r₁, ?_, mutEq_mutUpdate j r₁⟩
      rw [Option.map_some', if_pos (List.find?_some hf)]
  · refine ⟨newRow t db.nextId j, ?_, by simp [mutEq, newRow]⟩
    rw [List.find?_append]
    have h1 : List.find? (fun r => r.apply_url == keyOf j) db.rows = none := by
      rw [List.find?_eq_none]
      intro x hx hpx
      exact hany (List.any_eq_true.mpr ⟨x, hx, hpx⟩)
    rw [h1]
    simp [newRow, keyOf]

theorem lookupRow_exec_fields (t : Nat) : ∀ (b : List JobRec) (db : Db),
    (validKeys b).Nodup → ∀ j, j ∈ b → validJob j = true →
    ∃ r, lookupRow (execUpserts t db b) (keyOf j) = some r ∧ mutEq r j := by
  intro b
  induction b with
  | nil =>
    intro db _ j hj _
    exact absurd hj (List.not_mem_nil j)
  | cons j₀ js ih =>
    intro db hnd j hj hv
    rw [validKeys_cons] at hnd
    rw [List.mem_cons] at hj
    unfold execUpserts
    rcases hj with rfl | hj
    · rw [if_pos hv]
      rw [if_pos hv, List.nodup_cons] at hnd
      obtain ⟨r, hr, hme⟩ := lookupRow_upsertOne_self t db j
      refine ⟨r, ?_, hme⟩
      rw [lookupRow_exec_not_mem t js _ _ hnd.1]
      exact hr
    · by_cases hv₀ : validJob j₀ = true
      · rw [if_pos hv₀]
        rw [if_pos hv₀, List.nodup_cons] at hnd
        exact ih _ hnd.2 j hj hv
      · rw [if_neg hv₀]
        rw [if_neg hv₀] at hnd
        exact ih _ hnd j hj hv

theorem find?_unique (rows : List Row)
    (hnd : (rows.map (fun r => r.apply_url)).Nodup) (r : Row) (hr : r ∈ rows) :
    List.find? (fun x => x.apply_url == r.apply_url) rows = some r := by
  induction rows with
  | nil => exact absurd hr (List.not_mem_nil r)
  | cons r₀ rs ih =>
    rw [List.map_cons, List.nodup_cons] at hnd
    rw [List.mem_cons] at hr
    rcases hr with rfl | hr
    · simp only [List.find?_cons, beq_self_eq_true]
    · have h0 : (r₀.apply_url == r.apply_url) = false := by
        rw [beq_eq_false_iff_ne]
        intro hpx
        exact hnd.1 (hpx ▸ List.mem_map_of_mem (fun x => x.apply_url) hr)
      simp only [List.find?_cons, h0]
      exact ih hnd.2 hr

theorem mutUpdate_eq_self {r : Row} {j : JobRec} (h : mutEq r j) :
    mutUpdate j r = r := by
  cases r
  simp only [mutEq] at h
  simp [mutUpdate]
  exact ⟨h.1.symm, h.2.1.symm, h.2.2.1.symm, h.2.2.2.1.symm, h.2.2.2.2.1.symm,
    h.2.2.2.2.2.1.symm, h.2.2.2.2.2.2.1.symm, h.2.2.2.2.2.2.2.symm⟩

theorem upsertOne_absorb (t : Nat) (db : Db) (j : JobRec) (hu : uniqueKeys db)
    (hex : ∃ r, lookupRow db (keyOf j) = some r ∧ mutEq r j) :
    upsertOne t db j = db := by
  obtain ⟨r, hr, hme⟩ := hex
  unfold lookupRow at hr
  have hrmem : r ∈ db.rows := List.mem_of_find?_eq_some hr
  have hrurl := List.find?_some hr
  simp only at hrurl
  have hrurl' : r.apply_url = keyOf j := beq_iff_eq.mp hrurl
  unfold upsertOne
  rw [if_pos (List.any_eq_true.mpr ⟨r, hrmem, hrurl⟩)]
  have hall : ∀ x ∈ db.rows,
      (if x.apply_url == keyOf j then mutUpdate j x else x) = id x := by
    intro x hx
    by_cases hxk : (x.apply_url == keyOf j) = true
    · have hxk' : x.apply_url = keyOf j := beq_iff_eq.mp hxk
      have hfx := find?_unique db.rows hu x hx
      rw [hxk'] at hfx
      rw [hr] at hfx
      injection hfx with hfx
      subst hfx
      simp only [hxk, if_true, id]
      exact mutUpdate_eq_self hme
    · simp [hxk]
  rw [List.map_congr_left hall, List.map_id]

theorem exec_absorb (t₂ : Nat) : ∀ (b : List JobRec) (d : Db), uniqueKeys d →
    (∀ j, j ∈ b → validJob j = true →
      ∃ r, lookupRow d (keyOf j) = some r ∧ mutEq r j) →
    execUpserts t₂ d b = d := by
  intro b
  induction b with
  | nil => intro d _ _; rfl
  | cons j js ih =>
    intro d hu hall
    unfold execUpserts
    by_cases hv : validJob j = true
    · rw [if_pos hv,
        upsertOne_absorb t₂ d j hu (hall j (List.mem_cons_self _ _) hv)]
      exact ih d hu (fun j' hj' hv' => hall j' (List.mem_cons_of_mem _ hj') hv')
    · rw [if_neg hv]
      exact ih d hu (fun j' hj' hv' => hall j' (List.mem_cons_of_mem _ hj') hv')

theorem filter_key_unique (rows : List Row)
    (hnd : (rows.map (fun r => r.apply_url)).Nodup) (u : String) (r : Row)
    (h : List.find? (fun x => x.apply_url == u) rows = some r) :
    rows.filter (fun x => x.apply_url == u) = [r] := by
  induction rows with
  | nil => exact Option.noConfusion h
  | cons r₀ rs ih =>
    rw [List.map_cons, List.nodup_cons] at hnd
    by_cases h0 : (r₀.apply_url == u) = true
    · simp only [List.find?_cons, h0] at h
      injection h with h
      subst h
      simp only [List.filter_cons, h0, if_true]
      have hnil : rs.filter (fun x => x.apply_url == u) = [] := by
        rw [List.filter_eq_nil_iff]
        intro x hx hpx
        rw [beq_iff_eq] at hpx h0
        exact hnd.1 (h0 ▸ hpx ▸ List.mem_map_of_mem (fun y => y.apply_url) hx)
      rw [hnil]
    · rw [Bool.not_eq_true] at h0
      simp only [List.find?_cons, h0] at h
      simp only [List.filter_cons, h0, if_false]
      exact ih hnd.2 h

theorem rowsFor_eq_singleton (db : Db) (hu : uniqueKeys db) (u : String) (r : Row)
    (h : lookupRow db u = some r) : rowsFor db u = [r] := by
  unfold lookupRow at h
  unfold rowsFor
  exact filter_key_unique db.rows hu u r h

/-- C3: applying the same batch twice is idempotent — the second
application leaves the database exactly as the first left it — and for
every valid item of the batch there is exactly one stored row under its
`apply_url`, agreeing with the item on every mutable column; since the
second application changes nothing, the surrogate id and the creation
timestamp from the first application's insert are preserved unchanged
(the row after the second application is literally the row after the
first).  Hypotheses: the store satisfies its unique constraint and the
batch carries no duplicate valid key. -/
theorem upsert_idempotent (t₁ t₂ : Nat) (db : Db) (b : List JobRec)
    (hdb : uniqueKeys db) (hb : (validKeys b).Nodup) :
    save_jobs_to_db none t₂ (save_jobs_to_db none t₁ db b) b
      = save_jobs_to_db none t₁ db b ∧
    ∀ j, j ∈ b → validJob j = true →
      ∃ r, rowsFor (save_jobs_to_db none t₂ (save_jobs_to_db none t₁ db b) b)
              (keyOf j) = [r] ∧
        mutEq r j ∧
        rowsFor (save_jobs_to_db none t₁ db b) (keyOf j) = [r] := by
  simp only [save_jobs_to_db_none]
  have hu1 : uniqueKeys (execUpserts t₁ db b) := uniqueKeys_exec t₁ b db hdb
  have habs : execUpserts t₂ (execUpserts t₁ db b) b = execUpserts t₁ db b :=
    exec_absorb t₂ b _ hu1 (fun j hj hv => lookupRow_exec_fields t₁ b db hb j hj hv)
  refine ⟨habs, ?_⟩
  intro j hj hv
  obtain ⟨r, hr, hme⟩ := lookupRow_exec_fields t₁ b db hb j hj hv
  have h1 : rowsFor (execUpserts t₁ db b) (keyOf j) = [r] :=
    rowsFor_eq_singleton _ hu1 _ _ hr
  exact ⟨r, by rw [habs]; exact h1, hme, h1⟩

/-- C3 witness. -/
theorem upsert_idempotent_witness :
    uniqueKeys ⟨[], 0⟩ ∧ (validKeys [wj1, wj2]).Nodup ∧
    save_jobs_to_db none 1 (save_jobs_to_db none 0 ⟨[], 0⟩ [wj1, wj2]) [wj1, wj2]
      = save_jobs_to_db none 0 ⟨[], 0⟩ [wj1, wj2] ∧
    ∃ r, rowsFor (save_jobs_to_db none 1
            (save_jobs_to_db none 0 ⟨[], 0⟩ [wj1, wj2]) [wj1, wj2]) (keyOf wj1) = [r] ∧
      mutEq r wj1 ∧
      rowsFor (save_jobs_to_db none 0 ⟨[], 0⟩ [wj1, wj2]) (keyOf wj1) = [r] :=
  ⟨by unfold uniqueKeys; decide, by decide,
   (upsert_idempotent 0 1 ⟨[], 0⟩ [wj1, wj2]
      (by unfold uniqueKeys; decide) (by decide)).1,
   (upsert_idempotent 0 1 ⟨[], 0⟩ [wj1, wj2]
      (by unfold uniqueKeys; decide) (by decide)).2 wj1
     (by decide) (by decide)⟩

end JobAutomate
